import Mathlib

/-!
Verification of the `steps` tick-indexed step buffer (nimble-rust/steps,
src/lib.rs). The Rust `Steps<T>` structure is a `VecDeque<StepInfo<T>>`
together with two tick cursors; we embed it as a Lean structure over `List`
(front of the deque = head of the list) and model each operation by explicit
state passing. The fatal assertion inside `pop` is modelled by `Except`:
the `.error` case corresponds to the Rust panic.
-/

/-!
Modelled from the spec: the tick identifier type `TickId` comes from the
external crate `tick_id` (not part of this repository). The spec describes it
as an opaque, totally ordered counter over 32-bit unsigned values supporting
construction, equality, ordering and increment-by-one, with wraparound
explicitly out of scope. Tick identifiers are therefore embedded as `Nat`.
-/

/-- The closed three-way step variant from src/lib.rs. -/
inductive Step (T : Type) where
  | Forced : Step T
  | WaitingForReconnect : Step T
  | Custom : T → Step T
  deriving DecidableEq

/-- One participant's contribution for one tick (src/lib.rs `ParticipantStep<T>`).
The Rust `participant_id` is a `u8`; the buffer never computes with it, so it
is embedded as `Nat`. -/
structure ParticipantStep (T : Type) where
  participant_id : Nat
  step : Step T
  deriving DecidableEq

/-- All participant contributions for exactly one tick
(src/lib.rs `ParticipantSteps<T>`, a `Vec` kept in insertion order). -/
structure ParticipantSteps (T : Type) where
  steps : List (ParticipantStep T)
  deriving DecidableEq

/-- `ParticipantSteps::new`. -/
def ParticipantSteps.new {T : Type} : ParticipantSteps T := ⟨[]⟩

/-- `ParticipantSteps::push`: appends at the tail of the `Vec`. -/
def ParticipantSteps.push {T : Type} (ps : ParticipantSteps T) (pid : Nat) (s : Step T) :
    ParticipantSteps T :=
  ⟨ps.steps ++ [ParticipantStep.mk pid s]⟩

/-- `ParticipantSteps::len`. -/
def ParticipantSteps.len {T : Type} (ps : ParticipantSteps T) : Nat := ps.steps.length

/-- `ParticipantSteps::is_empty`. -/
def ParticipantSteps.is_empty {T : Type} (ps : ParticipantSteps T) : Bool := ps.steps.isEmpty

/-- Internal record binding a batch to its tick (src/lib.rs `StepInfo<T>`). -/
structure StepInfo (T : Type) where
  step : ParticipantSteps T
  tick_id : Nat
  deriving DecidableEq

/-- The step buffer (src/lib.rs `Steps<T>`): a deque of `StepInfo` plus the
read and write cursors. Head of the list is the front of the deque. -/
structure Steps (T : Type) where
  steps : List (StepInfo T)
  expected_read_id : Nat
  expected_write_id : Nat
  deriving DecidableEq

/-- `Steps::new`: empty queue, both cursors at tick 0. -/
def Steps.new {T : Type} : Steps T :=
  { steps := [], expected_read_id := 0, expected_write_id := 0 }

/-- `Steps::new_with_initial_tick`: empty queue, both cursors at the given tick. -/
def Steps.new_with_initial_tick {T : Type} (initial_tick_id : Nat) : Steps T :=
  { steps := [], expected_read_id := initial_tick_id, expected_write_id := initial_tick_id }

/-- `Steps::push`: append at the back, tagged with the current write cursor,
then advance the write cursor. -/
def Steps.push {T : Type} (s : Steps T) (batch : ParticipantSteps T) : Steps T :=
  { steps := s.steps ++ [StepInfo.mk batch s.expected_write_id],
    expected_read_id := s.expected_read_id,
    expected_write_id := s.expected_write_id + 1 }

/-- `Steps::pop`: `pop_front` the deque; on `Some`, `assert_eq!` the entry's
tick against the read cursor (the panic is the `.error` case) and advance the
read cursor. An empty queue yields `.ok (none, s)`, not an error. -/
def Steps.pop {T : Type} (s : Steps T) : Except String (Option (StepInfo T) × Steps T) :=
  match s.steps with
  | [] => Except.ok (none, s)
  | info :: rest =>
    if info.tick_id = s.expected_read_id then
      Except.ok (some info,
        { steps := rest,
          expected_read_id := s.expected_read_id + 1,
          expected_write_id := s.expected_write_id })
    else
      Except.error "assertion failed: step_info.tick_id == self.expected_read_id"

/-- The loop body of `Steps::pop_up_to`: while the front entry exists and its
tick is below the threshold, `pop_front` it; stop at the first entry whose
tick is greater than or equal to the threshold. -/
def popUpToLoop {T : Type} (tick_id : Nat) : List (StepInfo T) → List (StepInfo T)
  | [] => []
  | info :: rest =>
    if tick_id ≤ info.tick_id then info :: rest else popUpToLoop tick_id rest

/-- `Steps::pop_up_to`: discard front entries with tick below the threshold.
The cursors are untouched. -/
def Steps.pop_up_to {T : Type} (s : Steps T) (tick_id : Nat) : Steps T :=
  { s with steps := popUpToLoop tick_id s.steps }

/-- `Steps::pop_count`: `clear` when the count reaches the length, otherwise
`drain(..count)`, i.e. drop the first `count` entries. Cursors untouched. -/
def Steps.pop_count {T : Type} (s : Steps T) (count : Nat) : Steps T :=
  if s.steps.length ≤ count then { s with steps := [] }
  else { s with steps := s.steps.drop count }

/-- `Steps::front_tick_id`. -/
def Steps.front_tick_id {T : Type} (s : Steps T) : Option Nat :=
  s.steps.head?.map StepInfo.tick_id

/-- `Steps::back_tick_id`. -/
def Steps.back_tick_id {T : Type} (s : Steps T) : Option Nat :=
  s.steps.getLast?.map StepInfo.tick_id

/-- `Steps::len`. -/
def Steps.len {T : Type} (s : Steps T) : Nat := s.steps.length

/-- `Steps::is_empty`. -/
def Steps.is_empty {T : Type} (s : Steps T) : Bool := s.steps.isEmpty

/-- Tag a list of batches with consecutive ticks starting at `t`: the shape of
the queue built by consecutive pushes. Specification-side helper. -/
def tagFrom {T : Type} (t : Nat) : List (ParticipantSteps T) → List (StepInfo T)
  | [] => []
  | b :: bs => StepInfo.mk b t :: tagFrom (t + 1) bs

/-- Push a whole list of batches in order. -/
def Steps.pushAll {T : Type} (s : Steps T) : List (ParticipantSteps T) → Steps T
  | [] => s
  | b :: bs => Steps.pushAll (s.push b) bs

/-- Pop `n` times, collecting the returned entries in order. Propagates the
fatal assertion; stops early (with what was collected so far) if the queue
empties. -/
def Steps.popN {T : Type} (s : Steps T) : Nat → Except String (List (StepInfo T) × Steps T)
  | 0 => Except.ok ([], s)
  | Nat.succ n =>
    match s.pop with
    | Except.error msg => Except.error msg
    | Except.ok (none, s1) => Except.ok ([], s1)
    | Except.ok (some e, s1) =>
      match Steps.popN s1 n with
      | Except.error msg => Except.error msg
      | Except.ok (L, s2) => Except.ok (e :: L, s2)

/-- States reachable from a freshly created buffer by any sequence of `push`,
`pop`, `pop_up_to` and `pop_count` calls. A `pop` that trips the fatal
assertion halts the program, so it produces no successor state. -/
inductive Reachable {T : Type} : Steps T → Prop where
  | init (t0 : Nat) : Reachable (Steps.new_with_initial_tick t0)
  | push {s : Steps T} (b : ParticipantSteps T) : Reachable s → Reachable (s.push b)
  | pop {s s' : Steps T} {r : Option (StepInfo T)} :
      Reachable s → s.pop = Except.ok (r, s') → Reachable s'
  | pop_up_to {s : Steps T} (t : Nat) : Reachable s → Reachable (s.pop_up_to t)
  | pop_count {s : Steps T} (n : Nat) : Reachable s → Reachable (s.pop_count n)

/-- States reachable using only `push` and `pop` (no bulk-discard operation),
i.e. every entry ever removed was removed by `pop`, which advances the read
cursor in lock step. -/
inductive ReachableRW {T : Type} : Steps T → Prop where
  | init (t0 : Nat) : ReachableRW (Steps.new_with_initial_tick t0)
  | push {s : Steps T} (b : ParticipantSteps T) : ReachableRW s → ReachableRW (s.push b)
  | pop {s s' : Steps T} {r : Option (StepInfo T)} :
      ReachableRW s → s.pop = Except.ok (r, s') → ReachableRW s'

/-- The structural invariant of reachable buffers: the queue is a run of
consecutively ticked entries whose base is at least the read cursor and
whose one-past-the-end is exactly the write cursor. -/
def BufferInv {T : Type} (s : Steps T) : Prop :=
  ∃ base bs0, s.expected_read_id ≤ base
    ∧ s.steps = tagFrom base bs0
    ∧ base + bs0.length = s.expected_write_id

/-- The stronger invariant of push/pop-only states: the base of the run is
exactly the read cursor. -/
def BufferInvRW {T : Type} (s : Steps T) : Prop :=
  ∃ bs0, s.steps = tagFrom s.expected_read_id bs0
    ∧ s.expected_read_id + bs0.length = s.expected_write_id

theorem tagFrom_length {T : Type} (t : Nat) (l : List (ParticipantSteps T)) :
    (tagFrom t l).length = l.length := by
  induction l generalizing t with
  | nil => rfl
  | cons b bs ih => simp [tagFrom, ih]

theorem tagFrom_append {T : Type} (t : Nat) (l1 l2 : List (ParticipantSteps T)) :
    tagFrom t (l1 ++ l2) = tagFrom t l1 ++ tagFrom (t + l1.length) l2 := by
  induction l1 generalizing t with
  | nil => simp [tagFrom]
  | cons b bs ih =>
    show StepInfo.mk b t :: tagFrom (t + 1) (bs ++ l2)
        = StepInfo.mk b t :: (tagFrom (t + 1) bs ++ tagFrom (t + (b :: bs).length) l2)
    rw [ih]
    have harith : t + 1 + bs.length = t + (b :: bs).length := by
      simp [List.length_cons]
      omega
    rw [harith]

theorem tagFrom_drop {T : Type} (t : Nat) (l : List (ParticipantSteps T)) (k : Nat) :
    (tagFrom t l).drop k = tagFrom (t + k) (l.drop k) := by
  induction l generalizing t k with
  | nil => simp [tagFrom]
  | cons b bs ih =>
    cases k with
    | zero => rfl
    | succ k =>
      show (tagFrom (t + 1) bs).drop k = tagFrom (t + (k + 1)) (bs.drop k)
      rw [ih]
      have harith : t + 1 + k = t + (k + 1) := by omega
      rw [harith]

theorem tagFrom_mem_tick {T : Type} (t : Nat) (l : List (ParticipantSteps T)) :
    ∀ e ∈ tagFrom t l, t ≤ e.tick_id ∧ e.tick_id < t + l.length := by
  induction l generalizing t with
  | nil => simp [tagFrom]
  | cons b bs ih =>
    intro e he
    rw [show tagFrom t (b :: bs) = StepInfo.mk b t :: tagFrom (t + 1) bs from rfl,
      List.mem_cons] at he
    rcases he with rfl | he
    · simp [List.length_cons]
    · have := ih (t + 1) e he
      simp [List.length_cons]
      omega

theorem tagFrom_tick_get {T : Type} (l : List (ParticipantSteps T)) (t : Nat) (i : Nat)
    (e : StepInfo T) (h : (tagFrom t l)[i]? = some e) : e.tick_id = t + i := by
  induction l generalizing t i with
  | nil => simp [tagFrom] at h
  | cons b bs ih =>
    cases i with
    | zero =>
      rw [show tagFrom t (b :: bs) = StepInfo.mk b t :: tagFrom (t + 1) bs from rfl,
        List.getElem?_cons_zero] at h
      rw [← Option.some.injEq] at h
      cases h
      rfl
    | succ i =>
      rw [show tagFrom t (b :: bs) = StepInfo.mk b t :: tagFrom (t + 1) bs from rfl,
        List.getElem?_cons_succ] at h
      have := ih (t + 1) i h
      omega

theorem tagFrom_map_step {T : Type} (t : Nat) (l : List (ParticipantSteps T)) :
    (tagFrom t l).map StepInfo.step = l := by
  induction l generalizing t with
  | nil => rfl
  | cons b bs ih => simp [tagFrom, ih]

theorem tagFrom_tick_map_get {T : Type} (l : List (ParticipantSteps T)) (t : Nat) (i : Nat)
    (h : i < l.length) : ((tagFrom t l).map StepInfo.tick_id)[i]? = some (t + i) := by
  induction l generalizing t i with
  | nil => simp at h
  | cons b bs ih =>
    rw [show tagFrom t (b :: bs) = StepInfo.mk b t :: tagFrom (t + 1) bs from rfl,
      List.map_cons]
    cases i with
    | zero => simp
    | succ i =>
      rw [List.getElem?_cons_succ]
      have hi : i < bs.length := by
        simp [List.length_cons] at h
        omega
      rw [ih (t + 1) i hi]
      have harith : t + 1 + i = t + (i + 1) := by omega
      rw [harith]

theorem tagFrom_back {T : Type} (t : Nat) (b : ParticipantSteps T)
    (bs : List (ParticipantSteps T)) :
    (tagFrom t (b :: bs)).getLast?.map StepInfo.tick_id = some (t + bs.length) := by
  induction bs generalizing t b with
  | nil => rfl
  | cons c cs ih =>
    rw [show tagFrom t (b :: c :: cs)
        = StepInfo.mk b t :: StepInfo.mk c (t + 1) :: tagFrom (t + 2) cs from rfl]
    rw [List.getLast?_cons_cons]
    have := ih (t + 1) c
    rw [show tagFrom (t + 1) (c :: cs)
        = StepInfo.mk c (t + 1) :: tagFrom (t + 2) cs from rfl] at this
    rw [this]
    have harith : t + 1 + cs.length = t + (c :: cs).length := by
      simp [List.length_cons]
      omega
    rw [harith]

theorem popUpToLoop_suffix {T : Type} (t : Nat) (l : List (StepInfo T)) :
    ∃ k, k ≤ l.length ∧ popUpToLoop t l = l.drop k := by
  induction l with
  | nil => exact ⟨0, by simp, rfl⟩
  | cons e rest ih =>
    by_cases h : t ≤ e.tick_id
    · exact ⟨0, by simp, by simp [popUpToLoop, h]⟩
    · obtain ⟨k, hk, he⟩ := ih
      refine ⟨k + 1, by simp [List.length_cons]; omega, ?_⟩
      rw [show (e :: rest).drop (k + 1) = rest.drop k from rfl, ← he]
      simp [popUpToLoop, h]

theorem popUpToLoop_all_lt {T : Type} (t : Nat) (l : List (StepInfo T))
    (h : ∀ e ∈ l, e.tick_id < t) : popUpToLoop t l = [] := by
  induction l with
  | nil => rfl
  | cons e rest ih =>
    have h1 : e.tick_id < t := h e (List.mem_cons_self e rest)
    rw [show popUpToLoop t (e :: rest)
        = if t ≤ e.tick_id then e :: rest else popUpToLoop t rest from rfl]
    rw [if_neg (by omega)]
    exact ih fun x hx => h x (List.mem_cons_of_mem e hx)

theorem popUpToLoop_tagFrom {T : Type} (t b : Nat) (l : List (ParticipantSteps T)) :
    popUpToLoop t (tagFrom b l)
      = (tagFrom b l).filter (fun e => decide (t ≤ e.tick_id)) := by
  induction l generalizing b with
  | nil => rfl
  | cons x xs ih =>
    rw [show tagFrom b (x :: xs) = StepInfo.mk x b :: tagFrom (b + 1) xs from rfl]
    by_cases h : t ≤ b
    · rw [show popUpToLoop t (StepInfo.mk x b :: tagFrom (b + 1) xs)
          = if t ≤ (StepInfo.mk x b).tick_id then StepInfo.mk x b :: tagFrom (b + 1) xs
            else popUpToLoop t (tagFrom (b + 1) xs) from rfl]
      rw [if_pos h]
      symm
      apply List.filter_eq_self.mpr
      intro e he
      rw [List.mem_cons] at he
      rcases he with rfl | he
      · simpa using h
      · have := tagFrom_mem_tick (b + 1) xs e he
        simp only [decide_eq_true_eq]
        omega
    · rw [show popUpToLoop t (StepInfo.mk x b :: tagFrom (b + 1) xs)
          = if t ≤ (StepInfo.mk x b).tick_id then StepInfo.mk x b :: tagFrom (b + 1) xs
            else popUpToLoop t (tagFrom (b + 1) xs) from rfl]
      rw [if_neg h, ih (b + 1), List.filter_cons]
      simp [h]

theorem pop_nil {T : Type} {s : Steps T} (h : s.steps = []) :
    s.pop = Except.ok (none, s) := by
  obtain ⟨l, r, w⟩ := s
  simp only [] at h
  subst h
  rfl

theorem pop_cons {T : Type} {s : Steps T} {e : StepInfo T} {rest : List (StepInfo T)}
    (h : s.steps = e :: rest) :
    s.pop = if e.tick_id = s.expected_read_id
      then Except.ok (some e,
        { steps := rest,
          expected_read_id := s.expected_read_id + 1,
          expected_write_id := s.expected_write_id })
      else Except.error "assertion failed: step_info.tick_id == self.expected_read_id" := by
  obtain ⟨l, r, w⟩ := s
  simp only [] at h
  subst h
  rfl

theorem pop_count_eq_drop {T : Type} (s : Steps T) (n : Nat) :
    s.pop_count n = { s with steps := s.steps.drop n } := by
  obtain ⟨l, r, w⟩ := s
  show (if l.length ≤ n then _ else _) = _
  by_cases h : l.length ≤ n
  · rw [if_pos h]
    have : l.drop n = [] := List.drop_eq_nil_of_le h
    rw [show ({ steps := l, expected_read_id := r, expected_write_id := w} : Steps T).steps
        = l from rfl, this]
  · rw [if_neg h]

theorem front_tick_of_cons {T : Type} {s : Steps T} {e : StepInfo T} {rest : List (StepInfo T)}
    (h : s.steps = e :: rest) : s.front_tick_id = some e.tick_id := by
  unfold Steps.front_tick_id
  rw [h]
  rfl

theorem bufferInv_init {T : Type} (t0 : Nat) :
    BufferInv (Steps.new_with_initial_tick (T := T) t0) := by
  refine ⟨t0, [], Nat.le_refl t0, rfl, ?_⟩
  show t0 + 0 = t0
  omega

theorem bufferInv_push {T : Type} {s : Steps T} (h : BufferInv s) (b : ParticipantSteps T) :
    BufferInv (s.push b) := by
  obtain ⟨base, bs0, hr, hs, hw⟩ := h
  refine ⟨base, bs0 ++ [b], hr, ?_, ?_⟩
  · show s.steps ++ [StepInfo.mk b s.expected_write_id] = tagFrom base (bs0 ++ [b])
    rw [hs, tagFrom_append, hw]
    rfl
  · show base + (bs0 ++ [b]).length = s.expected_write_id + 1
    rw [List.length_append]
    simp only [List.length_cons, List.length_nil]
    omega

theorem bufferInv_pop {T : Type} {s s' : Steps T} {r : Option (StepInfo T)}
    (h : BufferInv s) (hp : s.pop = Except.ok (r, s')) : BufferInv s' := by
  obtain ⟨base, bs0, hr, hs, hw⟩ := h
  cases bs0 with
  | nil =>
    have h0 : s.steps = [] := by
      rw [hs]
      rfl
    rw [pop_nil h0] at hp
    have hss : s' = s := by
      injection hp with h2
      exact (congrArg Prod.snd h2).symm
    rw [hss]
    exact ⟨base, [], hr, hs, hw⟩
  | cons b0 bs =>
    have h0 : s.steps = StepInfo.mk b0 base :: tagFrom (base + 1) bs := by
      rw [hs]
      rfl
    rw [pop_cons h0] at hp
    by_cases heq : (StepInfo.mk b0 base).tick_id = s.expected_read_id
    · rw [if_pos heq] at hp
      have hbase : base = s.expected_read_id := heq
      have hss : s' =
          { steps := tagFrom (base + 1) bs,
            expected_read_id := s.expected_read_id + 1,
            expected_write_id := s.expected_write_id } := by
        injection hp with h2
        exact (congrArg Prod.snd h2).symm
      rw [hss]
      refine ⟨base + 1, bs, ?_, rfl, ?_⟩
      · show s.expected_read_id + 1 ≤ base + 1
        omega
      · show base + 1 + bs.length = s.expected_write_id
        have hlen : base + (b0 :: bs).length = s.expected_write_id := hw
        simp only [List.length_cons] at hlen
        omega
    · rw [if_neg heq] at hp
      exact absurd hp (by simp)

theorem bufferInv_drop {T : Type} {s : Steps T} (h : BufferInv s) (k : Nat) :
    BufferInv { s with steps := s.steps.drop k } := by
  obtain ⟨base, bs0, hr, hs, hw⟩ := h
  refine ⟨base + min k bs0.length, bs0.drop (min k bs0.length), ?_, ?_, ?_⟩
  · show s.expected_read_id ≤ base + min k bs0.length
    omega
  · show s.steps.drop k = tagFrom (base + min k bs0.length) (bs0.drop (min k bs0.length))
    rw [hs, tagFrom_drop]
    by_cases hk : k ≤ bs0.length
    · rw [Nat.min_eq_left hk]
    · have h1 : bs0.drop k = [] := List.drop_eq_nil_of_le (by omega)
      have h2 : bs0.drop (min k bs0.length) = [] := List.drop_eq_nil_of_le (by omega)
      rw [h1, h2]
      rfl
  · show base + min k bs0.length + (bs0.drop (min k bs0.length)).length = s.expected_write_id
    rw [List.length_drop]
    omega

theorem reachable_bufferInv {T : Type} {s : Steps T} (h : Reachable s) : BufferInv s := by
  induction h with
  | init t0 => exact bufferInv_init t0
  | push b hprev ih => exact bufferInv_push ih b
  | pop hprev hp ih => exact bufferInv_pop ih hp
  | pop_up_to t hprev ih =>
    rename_i s0
    obtain ⟨k, hk1, hk⟩ := popUpToLoop_suffix t s0.steps
    have he : s0.pop_up_to t = { s0 with steps := s0.steps.drop k } := by
      unfold Steps.pop_up_to
      rw [hk]
    rw [he]
    exact bufferInv_drop ih k
  | pop_count n hprev ih =>
    rename_i s0
    rw [pop_count_eq_drop]
    exact bufferInv_drop ih n

theorem reachableRW_bufferInvRW {T : Type} {s : Steps T} (h : ReachableRW s) :
    BufferInvRW s := by
  induction h with
  | init t0 =>
    refine ⟨[], rfl, ?_⟩
    show t0 + 0 = t0
    omega
  | push b hprev ih =>
    rename_i s0
    obtain ⟨bs0, hs, hw⟩ := ih
    refine ⟨bs0 ++ [b], ?_, ?_⟩
    · show s0.steps ++ [StepInfo.mk b s0.expected_write_id]
        = tagFrom s0.expected_read_id (bs0 ++ [b])
      rw [hs, tagFrom_append, hw]
      rfl
    · show s0.expected_read_id + (bs0 ++ [b]).length = s0.expected_write_id + 1
      rw [List.length_append]
      simp only [List.length_cons, List.length_nil]
      omega
  | pop hprev hp ih =>
    rename_i s0 s1 r
    obtain ⟨bs0, hs, hw⟩ := ih
    cases bs0 with
    | nil =>
      have h0 : s0.steps = [] := by
        rw [hs]
        rfl
      rw [pop_nil h0] at hp
      have hss : s1 = s0 := by
        injection hp with h2
        exact (congrArg Prod.snd h2).symm
      rw [hss]
      exact ⟨[], hs, hw⟩
    | cons b0 bs =>
      have h0 : s0.steps
          = StepInfo.mk b0 s0.expected_read_id :: tagFrom (s0.expected_read_id + 1) bs := by
        rw [hs]
        rfl
      rw [pop_cons h0] at hp
      rw [if_pos rfl] at hp
      have hss : s1 =
          { steps := tagFrom (s0.expected_read_id + 1) bs,
            expected_read_id := s0.expected_read_id + 1,
            expected_write_id := s0.expected_write_id } := by
        injection hp with h2
        exact (congrArg Prod.snd h2).symm
      rw [hss]
      refine ⟨bs, rfl, ?_⟩
      show s0.expected_read_id + 1 + bs.length = s0.expected_write_id
      have hlen : s0.expected_read_id + (b0 :: bs).length = s0.expected_write_id := hw
      simp only [List.length_cons] at hlen
      omega

theorem pushAll_mk {T : Type} (l : List (StepInfo T)) (r w : Nat)
    (bs : List (ParticipantSteps T)) :
    Steps.pushAll { steps := l, expected_read_id := r, expected_write_id := w } bs
      = { steps := l ++ tagFrom w bs, expected_read_id := r,
          expected_write_id := w + bs.length } := by
  induction bs generalizing l w with
  | nil =>
    show ({ steps := l, expected_read_id := r, expected_write_id := w } : Steps T)
        = { steps := l ++ tagFrom w [], expected_read_id := r,
            expected_write_id := w + ([] : List (ParticipantSteps T)).length }
    simp [tagFrom]
  | cons b bs ih =>
    show Steps.pushAll
        { steps := l ++ [StepInfo.mk b w], expected_read_id := r,
          expected_write_id := w + 1 } bs
        = { steps := l ++ tagFrom w (b :: bs), expected_read_id := r,
            expected_write_id := w + (b :: bs).length }
    rw [ih]
    have h1 : (l ++ [StepInfo.mk b w]) ++ tagFrom (w + 1) bs = l ++ tagFrom w (b :: bs) := by
      rw [List.append_assoc]
      rfl
    have h2 : w + 1 + bs.length = w + (b :: bs).length := by
      simp [List.length_cons]
      omega
    rw [h1, h2]

theorem pushAll_new_with_initial_tick {T : Type} (t0 : Nat)
    (bs : List (ParticipantSteps T)) :
    Steps.pushAll (Steps.new_with_initial_tick t0) bs
      = { steps := tagFrom t0 bs, expected_read_id := t0,
          expected_write_id := t0 + bs.length } := by
  rw [show (Steps.new_with_initial_tick t0 : Steps T)
      = { steps := [], expected_read_id := t0, expected_write_id := t0 } from rfl]
  rw [pushAll_mk]
  rw [List.nil_append]

theorem popN_tagFrom {T : Type} (bs : List (ParticipantSteps T)) (t0 w : Nat) (k : Nat)
    (hk : k ≤ bs.length) :
    Steps.popN
        { steps := tagFrom t0 bs, expected_read_id := t0, expected_write_id := w } k
      = Except.ok (tagFrom t0 (bs.take k),
          { steps := tagFrom (t0 + k) (bs.drop k), expected_read_id := t0 + k,
            expected_write_id := w }) := by
  induction k generalizing t0 bs with
  | zero =>
    show Except.ok ([], _) = _
    rw [List.take_zero, List.drop_zero]
    rw [show tagFrom (T := T) t0 [] = [] from rfl]
    rw [show t0 + 0 = t0 from rfl]
  | succ k ih =>
    cases bs with
    | nil => simp at hk
    | cons b bs =>
      have hpop : (⟨tagFrom t0 (b :: bs), t0, w⟩ : Steps T).pop
          = Except.ok (some (StepInfo.mk b t0),
              (⟨tagFrom (t0 + 1) bs, t0 + 1, w⟩ : Steps T)) := by
        rw [pop_cons (show (⟨tagFrom t0 (b :: bs), t0, w⟩ : Steps T).steps
            = StepInfo.mk b t0 :: tagFrom (t0 + 1) bs from rfl)]
        rw [if_pos rfl]
      have hi : k ≤ bs.length := by
        simp [List.length_cons] at hk
        omega
      have ih2 := ih bs (t0 + 1) hi
      simp only [Steps.popN, hpop, ih2]
      have harith : t0 + 1 + k = t0 + (k + 1) := by omega
      rw [List.take_succ_cons, List.drop_succ_cons, harith]
      rfl

/-- C1 (amended): in every state reachable from a freshly created buffer by
push, pop, pop_up_to and pop_count calls, whenever the queue is non-empty the
expected_read_id counter is at most the tick id of the front entry; it equals
the front tick id in every state reachable by push and pop alone. (The discard
operations pop_up_to and pop_count drop front entries without advancing
expected_read_id, so equality can fail after them.) -/
theorem C1_expected_read_vs_front {T : Type} (s : Steps T) :
    (Reachable s → ∀ f, s.front_tick_id = some f → s.expected_read_id ≤ f)
    ∧ (ReachableRW s → ∀ f, s.front_tick_id = some f → s.expected_read_id = f) := by
  constructor
  · intro h f hf
    obtain ⟨base, bs0, hr, hs, hw⟩ := reachable_bufferInv h
    cases bs0 with
    | nil =>
      have h0 : s.steps = [] := by
        rw [hs]
        rfl
      unfold Steps.front_tick_id at hf
      rw [h0] at hf
      exact absurd hf (by simp)
    | cons b bs =>
      have h0 : s.steps = StepInfo.mk b base :: tagFrom (base + 1) bs := by
        rw [hs]
        rfl
      rw [front_tick_of_cons h0] at hf
      injection hf with hff
      have hbf : base = f := hff
      omega
  · intro h f hf
    obtain ⟨bs0, hs, hw⟩ := reachableRW_bufferInvRW h
    cases bs0 with
    | nil =>
      have h0 : s.steps = [] := by
        rw [hs]
        rfl
      unfold Steps.front_tick_id at hf
      rw [h0] at hf
      exact absurd hf (by simp)
    | cons b bs =>
      have h0 : s.steps
          = StepInfo.mk b s.expected_read_id :: tagFrom (s.expected_read_id + 1) bs := by
        rw [hs]
        rfl
      rw [front_tick_of_cons h0] at hf
      exact Option.some.inj hf

/-- Witness for C1: in the concrete two-push state with initial tick 0 the
read cursor (0) is at most the front tick id (0). -/
theorem C1_expected_read_vs_front_witness :
    (((Steps.new_with_initial_tick 0 : Steps Unit).push
        (ParticipantSteps.mk [])).push (ParticipantSteps.mk [])).expected_read_id ≤ 0 :=
  (C1_expected_read_vs_front _).1
    (Reachable.push _ (Reachable.push _ (Reachable.init 0))) 0 rfl

/-- Counterexample to C1 as stated: after push, push, pop_up_to 1 from initial
tick 0 the queue is non-empty (front tick id 1) but expected_read_id is still
0, so the claimed equality fails in a reachable state. -/
theorem C1_counterexample :
    ∃ s : Steps Unit, Reachable s ∧ s.steps ≠ []
      ∧ s.front_tick_id ≠ some s.expected_read_id := by
  refine ⟨(((Steps.new_with_initial_tick 0).push (ParticipantSteps.mk [])).push
      (ParticipantSteps.mk [])).pop_up_to 1,
    Reachable.pop_up_to 1 (Reachable.push _ (Reachable.push _ (Reachable.init 0))),
    ?_, ?_⟩
  · decide
  · decide

/-- C4: pop_count(n) removes exactly min(n, len) entries from the front of the
queue regardless of their tick ids; the remaining queue is the original with
its first n entries dropped, and the buffer empties when n reaches the
length. -/
theorem C4_pop_count_min {T : Type} (s : Steps T) (n : Nat) :
    (s.pop_count n).steps = s.steps.drop n
    ∧ s.steps.length - (s.pop_count n).steps.length = min n s.steps.length
    ∧ (s.steps.length ≤ n → (s.pop_count n).steps = []) := by
  have h1 : (s.pop_count n).steps = s.steps.drop n := by
    rw [pop_count_eq_drop]
  refine ⟨h1, ?_, ?_⟩
  · rw [h1, List.length_drop]
    omega
  · intro h
    rw [h1]
    exact List.drop_eq_nil_of_le h

/-- Witness for C4: the concrete scenario of the spec — two pushes from
initial tick 23, then pop_count 8 empties the queue. -/
theorem C4_pop_count_min_witness :
    ((((Steps.new_with_initial_tick 23 : Steps Unit).push
        (ParticipantSteps.mk [])).push (ParticipantSteps.mk [])).pop_count 8).steps = [] :=
  (C4_pop_count_min _ 8).2.2 (by decide)

/-- C5: pop on an empty queue returns the "nothing available" result and
returns the state unchanged (queue and both cursors). -/
theorem C5_pop_empty {T : Type} (s : Steps T) (h : s.steps = []) :
    s.pop = Except.ok (none, s) :=
  pop_nil h

/-- Witness for C5: popping a freshly created buffer with initial tick 7. -/
theorem C5_pop_empty_witness :
    (Steps.new_with_initial_tick 7 : Steps Unit).pop
      = Except.ok (none, Steps.new_with_initial_tick 7) :=
  C5_pop_empty _ rfl

/-- C6: pop on a non-empty queue removes the front entry; when its tick id
equals expected_read_id the entry is returned and the read cursor advances,
and when it disagrees the fatal assertion fires (no value is returned, the
execution halts). -/
theorem C6_pop_nonempty {T : Type} (s : Steps T) (e : StepInfo T)
    (rest : List (StepInfo T)) (h : s.steps = e :: rest) :
    (e.tick_id = s.expected_read_id →
      s.pop = Except.ok (some e,
        { steps := rest,
          expected_read_id := s.expected_read_id + 1,
          expected_write_id := s.expected_write_id }))
    ∧ (e.tick_id ≠ s.expected_read_id →
      s.pop = Except.error "assertion failed: step_info.tick_id == self.expected_read_id") := by
  constructor
  · intro he
    rw [pop_cons h, if_pos he]
  · intro he
    rw [pop_cons h, if_neg he]

/-- Witness for C6: popping the one-entry buffer built by a single push from
initial tick 23 returns the entry with tick 23 and advances the read cursor
to 24. -/
theorem C6_pop_nonempty_witness :
    ((Steps.new_with_initial_tick 23 : Steps Unit).push (ParticipantSteps.mk [])).pop
      = Except.ok (some (StepInfo.mk (ParticipantSteps.mk []) 23),
          { steps := [], expected_read_id := 24, expected_write_id := 24 }) :=
  (C6_pop_nonempty _ (StepInfo.mk (ParticipantSteps.mk []) 23) [] rfl).1 rfl

/-- C10: pop_up_to and pop_count modify only the queue contents; both the
read cursor and the write cursor are unchanged by either operation. -/
theorem C10_discard_frame {T : Type} (s : Steps T) (t : Nat) (n : Nat) :
    (s.pop_up_to t).expected_read_id = s.expected_read_id
    ∧ (s.pop_up_to t).expected_write_id = s.expected_write_id
    ∧ (s.pop_count n).expected_read_id = s.expected_read_id
    ∧ (s.pop_count n).expected_write_id = s.expected_write_id := by
  refine ⟨rfl, rfl, ?_, ?_⟩
  · rw [pop_count_eq_drop]
  · rw [pop_count_eq_drop]

/-- C2: pushing the batches bs in order onto a buffer created empty with
initial tick t0 and then popping k times (1 ≤ k ≤ n) succeeds, returns the
first k batches in exactly push order, and the i-th popped record (0-based)
carries tick id t0 + i; in particular the k-th batch (1-indexed) carries
tick id t0 + k - 1. -/
theorem C2_push_pop_order {T : Type} (t0 : Nat) (bs : List (ParticipantSteps T)) (k : Nat)
    (h1 : 1 ≤ k) (h2 : k ≤ bs.length) :
    ∃ L s', (Steps.pushAll (Steps.new_with_initial_tick t0) bs).popN k
        = Except.ok (L, s')
      ∧ L.map StepInfo.step = bs.take k
      ∧ (∀ i, i < k → (L.map StepInfo.tick_id)[i]? = some (t0 + i))
      ∧ (L.map StepInfo.tick_id)[k - 1]? = some (t0 + k - 1) := by
  rw [pushAll_new_with_initial_tick]
  refine ⟨tagFrom t0 (bs.take k), _, popN_tagFrom bs t0 (t0 + bs.length) k h2,
    tagFrom_map_step t0 (bs.take k), ?_, ?_⟩
  · intro i hi
    apply tagFrom_tick_map_get
    rw [List.length_take]
    omega
  · have hl := tagFrom_tick_map_get (bs.take k) t0 (k - 1)
      (by rw [List.length_take]; omega)
    rw [hl]
    congr 1
    omega

/-- Witness for C2: two pushes from initial tick 23, two pops, in order with
ticks 23 and 24. -/
theorem C2_push_pop_order_witness :
    ∃ L s', (Steps.pushAll (Steps.new_with_initial_tick 23 : Steps Unit)
        [ParticipantSteps.mk [], ParticipantSteps.mk []]).popN 2 = Except.ok (L, s')
      ∧ L.map StepInfo.step = [ParticipantSteps.mk [], ParticipantSteps.mk []].take 2
      ∧ (∀ i, i < 2 → (L.map StepInfo.tick_id)[i]? = some (23 + i))
      ∧ (L.map StepInfo.tick_id)[2 - 1]? = some (23 + 2 - 1) :=
  C2_push_pop_order 23 [ParticipantSteps.mk [], ParticipantSteps.mk []] 2
    (by decide) (by decide)

/-- C3: for every reachable buffer state and threshold t: pop_up_to t is a
no-op when the queue is non-empty and t is at most the front tick id; it
empties the queue when t is beyond the back tick id; and in general it
removes exactly the entries with tick id strictly below t, never one with
tick id at least t. -/
theorem C3_pop_up_to_exact {T : Type} (s : Steps T) (t : Nat) (h : Reachable s) :
    (∀ e rest, s.steps = e :: rest → t ≤ e.tick_id → s.pop_up_to t = s)
    ∧ (∀ b, s.back_tick_id = some b → b < t → (s.pop_up_to t).steps = [])
    ∧ (s.pop_up_to t).steps = s.steps.filter (fun e => decide (t ≤ e.tick_id)) := by
  obtain ⟨base, bs0, hr, hs, hw⟩ := reachable_bufferInv h
  refine ⟨?_, ?_, ?_⟩
  · intro e rest hsr hte
    show { s with steps := popUpToLoop t s.steps } = s
    rw [hsr]
    rw [show popUpToLoop t (e :: rest)
        = if t ≤ e.tick_id then e :: rest else popUpToLoop t rest from rfl]
    rw [if_pos hte, ← hsr]
  · intro b hb hbt
    show popUpToLoop t s.steps = []
    apply popUpToLoop_all_lt
    intro e he
    cases bs0 with
    | nil =>
      rw [hs] at he
      exact absurd he (by simp [tagFrom])
    | cons b0 bs =>
      rw [hs] at he
      have hmem := tagFrom_mem_tick base (b0 :: bs) e he
      unfold Steps.back_tick_id at hb
      rw [hs, tagFrom_back] at hb
      have hbb : base + bs.length = b := Option.some.inj hb
      simp only [List.length_cons] at hmem
      omega
  · show popUpToLoop t s.steps = s.steps.filter (fun e => decide (t ≤ e.tick_id))
    rw [hs, popUpToLoop_tagFrom]

/-- Witness for C3: the concrete spec scenario — two pushes from initial tick
23, then pop_up_to 24 keeps exactly the entries with tick at least 24. -/
theorem C3_pop_up_to_exact_witness :
    ((((Steps.new_with_initial_tick 23 : Steps Unit).push (ParticipantSteps.mk [])).push
        (ParticipantSteps.mk [])).pop_up_to 24).steps
      = (((Steps.new_with_initial_tick 23 : Steps Unit).push (ParticipantSteps.mk [])).push
        (ParticipantSteps.mk [])).steps.filter (fun e => decide (24 ≤ e.tick_id)) :=
  (C3_pop_up_to_exact _ 24 (Reachable.push _ (Reachable.push _ (Reachable.init 23)))).2.2

/-- C7: push always succeeds, appending a record tagged with the current
expected_write_id at the tail and incrementing expected_write_id, so the
queue length grows by exactly one; and after pushing n batches onto a fresh
buffer and popping m ≤ n times successfully, the length is n - m. -/
theorem C7_push_appends {T : Type} (s : Steps T) (b : ParticipantSteps T) :
    (s.push b).steps = s.steps ++ [StepInfo.mk b s.expected_write_id]
    ∧ (s.push b).expected_write_id = s.expected_write_id + 1
    ∧ (s.push b).steps.length = s.steps.length + 1
    ∧ ∀ (t0 : Nat) (bs : List (ParticipantSteps T)) (m : Nat), m ≤ bs.length →
        (Steps.pushAll (Steps.new_with_initial_tick t0) bs).steps.length = bs.length
        ∧ ∃ L s', (Steps.pushAll (Steps.new_with_initial_tick t0) bs).popN m
            = Except.ok (L, s') ∧ s'.steps.length = bs.length - m := by
  refine ⟨rfl, rfl, ?_, ?_⟩
  · show (s.steps ++ [StepInfo.mk b s.expected_write_id]).length = s.steps.length + 1
    rw [List.length_append]
    rfl
  · intro t0 bs m hm
    rw [pushAll_new_with_initial_tick]
    constructor
    · show (tagFrom t0 bs).length = bs.length
      exact tagFrom_length t0 bs
    · refine ⟨tagFrom t0 (bs.take m), _, popN_tagFrom bs t0 (t0 + bs.length) m hm, ?_⟩
      show (tagFrom (t0 + m) (bs.drop m)).length = bs.length - m
      rw [tagFrom_length, List.length_drop]

/-- Witness for C7: two pushes from initial tick 3 give length 2; one
successful pop leaves length 1. -/
theorem C7_push_appends_witness :
    (Steps.pushAll (Steps.new_with_initial_tick 3 : Steps Unit)
        [ParticipantSteps.mk [], ParticipantSteps.mk []]).steps.length = 2
    ∧ ∃ L s', (Steps.pushAll (Steps.new_with_initial_tick 3 : Steps Unit)
        [ParticipantSteps.mk [], ParticipantSteps.mk []]).popN 1 = Except.ok (L, s')
      ∧ s'.steps.length = 2 - 1 :=
  (C7_push_appends (Steps.new_with_initial_tick 0 : Steps Unit)
    (ParticipantSteps.mk [])).2.2.2 3
    [ParticipantSteps.mk [], ParticipantSteps.mk []] 1 (by decide)

/-- C8: in every reachable state the queue is ordered by strictly increasing,
contiguous tick ids: an entry at position i+1 carries the tick id of the
entry at position i plus one. -/
theorem C8_contiguous_ticks {T : Type} {s : Steps T} (h : Reachable s) (i : Nat)
    (e1 e2 : StepInfo T) (h1 : s.steps[i]? = some e1) (h2 : s.steps[i + 1]? = some e2) :
    e2.tick_id = e1.tick_id + 1 := by
  obtain ⟨base, bs0, hr, hs, hw⟩ := reachable_bufferInv h
  rw [hs] at h1 h2
  have g1 := tagFrom_tick_get bs0 base i e1 h1
  have g2 := tagFrom_tick_get bs0 base (i + 1) e2 h2
  omega

/-- Witness for C8: in the concrete two-push state from initial tick 23 the
second entry's tick id is the first entry's plus one. -/
theorem C8_contiguous_ticks_witness :
    (StepInfo.mk (ParticipantSteps.mk ([] : List (ParticipantStep Unit))) 24).tick_id
      = (StepInfo.mk (ParticipantSteps.mk ([] : List (ParticipantStep Unit))) 23).tick_id
        + 1 :=
  C8_contiguous_ticks
    (Reachable.push (ParticipantSteps.mk [])
      (Reachable.push (ParticipantSteps.mk []) (Reachable.init 23))) 0
    (StepInfo.mk (ParticipantSteps.mk []) 23) (StepInfo.mk (ParticipantSteps.mk []) 24)
    (by decide) (by decide)

/-- C9: in every reachable state expected_write_id is one past the tick id of
the back entry whenever the queue is non-empty; and in every state reachable
by push and pop alone (so no entry was ever discarded past the read cursor),
an empty queue implies expected_write_id equals expected_read_id. -/
theorem C9_write_cursor {T : Type} (s : Steps T) :
    (Reachable s → ∀ b, s.back_tick_id = some b → s.expected_write_id = b + 1)
    ∧ (ReachableRW s → s.steps = [] → s.expected_write_id = s.expected_read_id) := by
  constructor
  · intro h b hb
    obtain ⟨base, bs0, hr, hs, hw⟩ := reachable_bufferInv h
    cases bs0 with
    | nil =>
      unfold Steps.back_tick_id at hb
      rw [hs] at hb
      exact absurd hb (by simp [tagFrom])
    | cons b0 bs =>
      unfold Steps.back_tick_id at hb
      rw [hs, tagFrom_back] at hb
      have hbb : base + bs.length = b := Option.some.inj hb
      simp only [List.length_cons] at hw
      omega
  · intro h hempty
    obtain ⟨bs0, hs, hw⟩ := reachableRW_bufferInvRW h
    cases bs0 with
    | nil =>
      simp only [List.length_nil] at hw
      omega
    | cons b0 bs =>
      rw [hempty] at hs
      exact absurd hs (by simp [tagFrom])

/-- Witness for C9: after one push from initial tick 23 the back tick id is
23 and the write cursor is 24. -/
theorem C9_write_cursor_witness :
    ((Steps.new_with_initial_tick 23 : Steps Unit).push
        (ParticipantSteps.mk [])).expected_write_id = 23 + 1 :=
  (C9_write_cursor _).1 (Reachable.push _ (Reachable.init 23)) 23 (by decide)
